import Mathlib

/-!
Verification development for the `intmap` crate (`src/lib.rs`): a hash map
from 64-bit integer keys to values of an arbitrary type, stored as a
power-of-two array of bucket chains with a multiplicative (Fibonacci) hash.

The definitions below are a shallow embedding of the Rust source: keys are
`Nat` (the hash reduces modulo `2 ^ 64` exactly as `u64` wrapping
multiplication does), the bucket array `Vec<Vec<(u64, V)>>` is a
`List (List (Nat × V))`, and each mutating method becomes a function from
map to map.
-/

/-- Rust `IntMap::hash_u64`: wrapping multiplication of the key by the fixed
constant `11400714819323198549` on `u64`. -/
def hash_u64 (seed : Nat) : Nat := (11400714819323198549 * seed) % 2 ^ 64

/-- The helper `modifyAt c i f` applies `f` to the `i`-th entry of `c`, leaving the
list unchanged when `i` is out of range (in-place update of one slot of a
`Vec`). -/
def modifyAt {α : Type} : List α → Nat → (α → α) → List α
  | [], _, _ => []
  | x :: xs, 0, f => f x :: xs
  | x :: xs, n + 1, f => x :: modifyAt xs n f

/-- Rust `Vec::swap_remove(i)`: replace position `i` by the last element, then
drop the last position. -/
def swap_remove {α : Type} (l : List α) (i : Nat) : List α :=
  match l.getLast? with
  | none => l
  | some a => (l.set i a).dropLast

/-- The struct `IntMap<V>`: `cache` is the bucket array of chains, `size`
the exponent (`cache.len() == 2^size` in well-formed states), `mod_mask`
the bit mask used for index computation, and `count` the number of stored
pairs. -/
structure IntMap (V : Type) where
  cache : List (List (Nat × V))
  size : Nat
  mod_mask : Nat
  count : Nat

namespace IntMap

variable {V : Type}

/-- Rust `calc_index`: the bucket index of a key, `hash_u64(key) & mod_mask`. -/
def calc_index (m : IntMap V) (key : Nat) : Nat := hash_u64 key &&& m.mod_mask

/-- Rust `lim`: `2^size`, the intended bucket-array length. -/
def lim (m : IntMap V) : Nat := 2 ^ m.size

/-- Push one pair onto the end of the chain at index `ix`. -/
def pushAt (c : List (List (Nat × V))) (ix : Nat) (kv : Nat × V) :
    List (List (Nat × V)) :=
  modifyAt c ix (fun vals => vals ++ [kv])

/-- The rehash loop of `increase_cache`: push every pair onto the chain at
its hashed index under `mask`. -/
def distribute (mask : Nat) (c : List (List (Nat × V))) (l : List (Nat × V)) :
    List (List (Nat × V)) :=
  l.foldl (fun c kv => pushAt c (hash_u64 kv.1 &&& mask) kv) c

/-- Rust `increase_cache`: increment `size`, recompute `mod_mask`, allocate
`2^size` empty chains and re-insert every stored pair at its new index. -/
def increase_cache (m : IntMap V) : IntMap V :=
  { cache := distribute (2 ^ (m.size + 1) - 1)
      (List.replicate (2 ^ (m.size + 1)) []) m.cache.flatten
    size := m.size + 1
    mod_mask := 2 ^ (m.size + 1) - 1
    count := m.count }

/-- The loop condition of `ensure_load_rate`:
`(count * 100) / cache.len() > 70`. -/
def overloaded (m : IntMap V) : Bool := decide (70 < m.count * 100 / m.cache.length)

/-- Fuel-indexed unfolding of the `ensure_load_rate` while-loop. -/
def ensure_fuel : Nat → IntMap V → IntMap V
  | 0, m => m
  | fuel + 1, m => if overloaded m then ensure_fuel fuel (increase_cache m) else m

/-- Rust `ensure_load_rate`: double the bucket array while
`(count * 100) / cache.len() > 70`. `count + 2` rounds of fuel always make
the loop run to completion, because each round doubles `2^size`. -/
def ensure_load_rate (m : IntMap V) : IntMap V := ensure_fuel (m.count + 2) m

/-- Rust `insert`: insert if the key is absent, returning whether insertion
happened together with the updated map; after an insertion, when
`count & 4 == 4`, run `ensure_load_rate`. -/
def insert (m : IntMap V) (key : Nat) (value : V) : Bool × IntMap V :=
  let ix := m.calc_index key
  let vals := m.cache.getD ix []
  if vals.any (fun kv => kv.1 == key) then
    (false, m)
  else
    let m1 : IntMap V :=
      { m with count := m.count + 1, cache := pushAt m.cache ix (key, value) }
    if m1.count &&& 4 == 4 then (true, ensure_load_rate m1) else (true, m1)

/-- The state-update part of a successful insertion, before the load
check: `count += 1` and push `(key, value)` onto the key's chain. -/
def plain_insert (m : IntMap V) (key : Nat) (value : V) : IntMap V :=
  { m with count := m.count + 1,
           cache := pushAt m.cache (m.calc_index key) (key, value) }

/-- Rust `get`: value of the first pair in the key's chain whose key matches. -/
def get (m : IntMap V) (key : Nat) : Option V :=
  ((m.cache.getD (m.calc_index key) []).find? (fun kv => kv.1 == key)).map Prod.snd

/-- Rust `contains_key`: whether `get` finds the key. -/
def contains_key (m : IntMap V) (key : Nat) : Bool := (m.get key).isSome

/-- First-match in-place update of a chain: writing through the mutable
reference returned by `get_mut`, which points at the first pair whose key
matches. -/
def updateFirst (key : Nat) (f : V → V) : List (Nat × V) → List (Nat × V)
  | [] => []
  | kv :: rest =>
    if kv.1 == key then (kv.1, f kv.2) :: rest else kv :: updateFirst key f rest

/-- Mutating the value behind `get_mut(key)` with `f`; when the key is
absent `get_mut` returns `None` and the map is unchanged. -/
def get_mut_update (m : IntMap V) (key : Nat) (f : V → V) : IntMap V :=
  { m with cache := modifyAt m.cache (m.calc_index key) (updateFirst key f) }

/-- Index of the first pair in a chain whose key matches (the linear scan
inside `remove`). -/
def findIndex (key : Nat) : List (Nat × V) → Option Nat
  | [] => none
  | kv :: rest => if kv.1 == key then some 0 else (findIndex key rest).map (· + 1)

/-- Rust `remove`: locate the key in its chain, `swap_remove` it, decrement
`count` and return the removed value; `none` when the key is absent. -/
def remove (m : IntMap V) (key : Nat) : Option V × IntMap V :=
  let ix := m.calc_index key
  let vals := m.cache.getD ix []
  match findIndex key vals with
  | none => (none, m)
  | some i =>
    match vals[i]? with
    | none => (none, m)
    | some kv =>
      (some kv.2,
        { m with count := m.count - 1,
                 cache := modifyAt m.cache ix (fun _ => swap_remove vals i) })

/-- Rust `clear`: empty every chain in place and reset `count`. -/
def clear (m : IntMap V) : IntMap V :=
  { m with cache := m.cache.map (fun _ => []), count := 0 }

/-- Rust `retain`: keep only the pairs satisfying the predicate, decrementing
`count` by the number removed. -/
def retain (m : IntMap V) (f : Nat → V → Bool) : IntMap V :=
  let cache := m.cache.map (fun vals => vals.filter (fun kv => f kv.1 kv.2))
  { m with cache := cache,
           count := m.count - (m.cache.flatten.length - cache.flatten.length) }

/-- Fuel-indexed unfolding of the `while map.lim() < cap` loop shared by
`with_capacity` and `reserve`. -/
def grow_fuel : Nat → IntMap V → Nat → IntMap V
  | 0, m, _ => m
  | fuel + 1, m, cap =>
    if m.lim < cap then grow_fuel fuel (increase_cache m) cap else m

/-- The `while map.lim() < cap { map.increase_cache() }` loop shared by
`with_capacity` and `reserve`. `cap` rounds of fuel always make the loop
run to completion, because `lim` doubles each round (see
`grow_fuel_stable`). -/
def grow_til (m : IntMap V) (cap : Nat) : IntMap V := grow_fuel cap m cap

/-- Rust `with_capacity`: start from the empty struct, call `increase_cache`
once, then grow until `lim() ≥ capacity`. -/
def with_capacity (capacity : Nat) : IntMap V :=
  grow_til (increase_cache { cache := [], size := 0, mod_mask := 0, count := 0 })
    capacity

/-- Rust `new`: `with_capacity 4`. -/
def new : IntMap V := with_capacity 4

/-- Rust `reserve`: grow until `lim()` reaches the next power of two at or above
`count + additional`. -/
def reserve (m : IntMap V) (additional : Nat) : IntMap V :=
  grow_til m (Nat.nextPowerOfTwo (m.count + additional))

/-- Rust `len`: the number of stored pairs. -/
def len (m : IntMap V) : Nat := m.count

/-- Rust `is_empty`: whether `count == 0`. -/
def is_empty (m : IntMap V) : Bool := m.count == 0

/-- Rust `capacity`: the bucket-array length. -/
def capacity (m : IntMap V) : Nat := m.cache.length

/-- Rust `assert_count`: the debug check that `count` matches the number of
stored pairs. -/
def assert_count (m : IntMap V) : Bool := m.count == m.cache.flatten.length

/-- All stored pairs in bucket order, the traversal order of `iter()`. -/
def toList (m : IntMap V) : List (Nat × V) := m.cache.flatten

/-- The `PartialEq` implementation: every pair yielded by the left map's
`iter()` is found, with an equal value, by the right map's `get`. -/
def mapEq [BEq V] (a b : IntMap V) : Bool :=
  a.toList.all (fun kv => b.get kv.1 == some kv.2)

/-- The structural invariant of a map: the bucket array has power-of-two
length `2^size` with `size ≥ 1`, `mod_mask` is that length minus one,
`count` is the total number of stored pairs, no key occurs twice, and
every pair sits in the chain at its `calc_index`. -/
structure Good (m : IntMap V) : Prop where
  size_pos : 1 ≤ m.size
  len_eq : m.cache.length = 2 ^ m.size
  mask_eq : m.mod_mask = 2 ^ m.size - 1
  count_eq : m.count = m.cache.flatten.length
  nodup : (m.cache.flatten.map Prod.fst).Nodup
  placed : ∀ j, ∀ kv ∈ m.cache.getD j ([] : List (Nat × V)), m.calc_index kv.1 = j

/-- Folding `insert` over a list of pairs. -/
def insertAll (m : IntMap V) (l : List (Nat × V)) : IntMap V :=
  l.foldl (fun m kv => (m.insert kv.1 kv.2).2) m

/-- Modelled from the spec: the Entry-based counting update (`Vacant` →
insert 0 then increment, `Occupied` → increment in place). Per the spec's
entry-equivalence property this behaves identically to branching on
`contains_key` into `insert` / `get_mut`; the `entry` module itself is not
among the sources. -/
def bump (m : IntMap Nat) (key : Nat) : IntMap Nat :=
  if m.contains_key key then m.get_mut_update key (· + 1)
  else ((m.insert key 0).2).get_mut_update key (· + 1)

/-- The counting scenario: keys `10,30,10,40,50,50,60,50` processed by
`bump` starting from `new()`. -/
def countScenario : IntMap Nat := [10, 30, 10, 40, 50, 50, 60, 50].foldl bump new

/-- Example map `{1 ↦ 5}` for the equality analysis. -/
def exL : IntMap Nat := ((new : IntMap Nat).insert 1 5).2

/-- Example map `{1 ↦ 5, 2 ↦ 6}`, a strict superset of `exL`. -/
def exR : IntMap Nat := (exL.insert 2 6).2

end IntMap

/-! ### Basic lemmas about `modifyAt`, `flatten` and `swap_remove` -/

theorem length_modifyAt {α : Type} (c : List α) (i : Nat) (f : α → α) :
    (modifyAt c i f).length = c.length := by
  induction c generalizing i with
  | nil => rfl
  | cons x xs ih =>
    cases i with
    | zero => simp [modifyAt]
    | succ n => simp [modifyAt, ih]

theorem getD_modifyAt_self {α : Type} (c : List α) (i : Nat) (f : α → α) (d : α)
    (h : i < c.length) : (modifyAt c i f).getD i d = f (c.getD i d) := by
  induction c generalizing i with
  | nil => simp at h
  | cons x xs ih =>
    cases i with
    | zero => simp [modifyAt]
    | succ n => simpa [modifyAt] using ih n (by simpa using h)

theorem getD_modifyAt_ne {α : Type} (c : List α) (i j : Nat) (f : α → α) (d : α)
    (h : j ≠ i) : (modifyAt c i f).getD j d = c.getD j d := by
  induction c generalizing i j with
  | nil => rfl
  | cons x xs ih =>
    cases i with
    | zero =>
      cases j with
      | zero => exact absurd rfl h
      | succ n => simp [modifyAt]
    | succ n =>
      cases j with
      | zero => simp [modifyAt]
      | succ p => simpa [modifyAt] using ih n p (by omega)

theorem flatten_decomp {α : Type} (c : List (List α)) (i : Nat) (h : i < c.length) :
    c.flatten = (c.take i).flatten ++ c.getD i [] ++ (c.drop (i + 1)).flatten := by
  induction c generalizing i with
  | nil => simp at h
  | cons x xs ih =>
    cases i with
    | zero => simp
    | succ n =>
      have := ih n (by simpa using h)
      simp only [List.take_succ_cons, List.drop_succ_cons, List.flatten_cons,
        List.getD_cons_succ]
      rw [List.append_assoc, List.append_assoc] at *
      rw [← this]

theorem flatten_modifyAt {α : Type} (c : List (List α)) (i : Nat) (f : List α → List α)
    (h : i < c.length) :
    (modifyAt c i f).flatten =
      (c.take i).flatten ++ f (c.getD i []) ++ (c.drop (i + 1)).flatten := by
  induction c generalizing i with
  | nil => simp at h
  | cons x xs ih =>
    cases i with
    | zero => simp [modifyAt]
    | succ n =>
      have := ih n (by simpa using h)
      simp only [modifyAt, List.take_succ_cons, List.drop_succ_cons, List.flatten_cons,
        List.getD_cons_succ]
      rw [List.append_assoc, List.append_assoc] at *
      rw [this]

theorem mem_flatten_of_getD {α : Type} {x : α} (c : List (List α)) (j : Nat)
    (h : x ∈ c.getD j []) : x ∈ c.flatten := by
  induction c generalizing j with
  | nil => simp [List.getD] at h
  | cons y ys ih =>
    cases j with
    | zero =>
      simp only [List.getD_cons_zero] at h
      exact List.mem_flatten.2 ⟨y, List.mem_cons_self _ _, h⟩
    | succ n =>
      simp only [List.getD_cons_succ] at h
      simp only [List.flatten_cons, List.mem_append]
      exact Or.inr (ih n h)

theorem exists_getD_of_mem_flatten {α : Type} {x : α} (c : List (List α))
    (h : x ∈ c.flatten) : ∃ j, j < c.length ∧ x ∈ c.getD j [] := by
  induction c with
  | nil => simp at h
  | cons y ys ih =>
    simp only [List.flatten_cons, List.mem_append] at h
    rcases h with h1 | h1
    · exact ⟨0, by simp, by simpa using h1⟩
    · rcases ih h1 with ⟨j, hj, hmem⟩
      exact ⟨j + 1, by simpa using hj, by simpa using hmem⟩

theorem getLast_cons_perm {α : Type} (l : List α) (h : l ≠ []) :
    l.Perm (l.getLast h :: l.dropLast) := by
  conv_lhs => rw [← List.dropLast_append_getLast h]
  exact List.perm_append_singleton _ _

theorem swap_remove_perm {α : Type} (l : List α) (i : Nat) (x : α)
    (h : l[i]? = some x) : l.Perm (x :: swap_remove l i) := by
  induction l generalizing i with
  | nil => simp at h
  | cons y ys ih =>
    cases i with
    | zero =>
      have hxy : x = y := by simpa using h.symm
      subst hxy
      cases ys with
      | nil => simp [swap_remove]
      | cons z zs =>
        have hne : (z :: zs) ≠ ([] : List α) := by simp
        have hlast : (x :: z :: zs).getLast? = some ((z :: zs).getLast hne) := by
          rw [List.getLast?_cons_cons, List.getLast?_eq_getLast _ hne]
        simp only [swap_remove, hlast, List.set_cons_zero]
        rw [List.dropLast_cons₂]
        exact List.Perm.cons x (getLast_cons_perm (z :: zs) hne)
    | succ n =>
      simp only [List.getElem?_cons_succ] at h
      have hys : ys ≠ [] := by
        intro hnil; subst hnil; simp at h
      have hlast2 : ys.getLast? = some (ys.getLast hys) := List.getLast?_eq_getLast _ hys
      have hlast : (y :: ys).getLast? = some (ys.getLast hys) := by
        cases ys with
        | nil => exact absurd rfl hys
        | cons z zs => rw [List.getLast?_cons_cons, List.getLast?_eq_getLast _ hys]
      have hset : (ys.set n (ys.getLast hys)) ≠ [] := by
        intro hnil
        have hlen := congrArg List.length hnil
        simp only [List.length_set, List.length_nil] at hlen
        rw [List.length_eq_zero] at hlen
        subst hlen; simp at h
      simp only [swap_remove, hlast, hlast2, List.set_cons_succ]
      have hd : (y :: ys.set n (ys.getLast hys)).dropLast =
          y :: (ys.set n (ys.getLast hys)).dropLast := by
        cases hsn : ys.set n (ys.getLast hys) with
        | nil => exact absurd hsn hset
        | cons w ws => rw [List.dropLast_cons₂]
      rw [hd]
      have ihh := ih n h
      rw [swap_remove, hlast2] at ihh
      exact (List.Perm.cons y ihh).trans (List.Perm.swap x y _)

namespace IntMap

variable {V : Type}

theorem findIndex_eq_none_iff (key : Nat) (l : List (Nat × V)) :
    findIndex key l = none ↔ ∀ kv ∈ l, kv.1 ≠ key := by
  induction l with
  | nil => simp [findIndex]
  | cons kv rest ih =>
    by_cases hk : kv.1 = key
    · simp [findIndex, hk]
    · constructor
      · intro h0 kv' hm
        rcases List.mem_cons.1 hm with hm | hm
        · subst hm; exact hk
        · simp only [findIndex, beq_iff_eq, if_neg hk, Option.map_eq_none'] at h0
          exact (ih.1 h0) kv' hm
      · intro hall
        have h0 : findIndex key rest = none :=
          ih.2 (fun kv' hm => hall kv' (List.mem_cons_of_mem _ hm))
        simp only [findIndex, beq_iff_eq, if_neg hk, h0, Option.map_none']

theorem findIndex_some (key : Nat) (l : List (Nat × V)) (i : Nat)
    (h : findIndex key l = some i) :
    ∃ kv, l[i]? = some kv ∧ kv.1 = key ∧
      l.find? (fun kv => kv.1 == key) = some kv := by
  induction l generalizing i with
  | nil => simp [findIndex] at h
  | cons kv rest ih =>
    by_cases hk : kv.1 = key
    · simp only [findIndex, beq_iff_eq, if_pos hk, Option.some.injEq] at h
      subst h
      exact ⟨kv, by simp, hk, List.find?_cons_of_pos _ (by simpa using hk)⟩
    · simp only [findIndex, beq_iff_eq, if_neg hk] at h
      rcases Option.map_eq_some'.1 h with ⟨i', hi', hplus⟩
      subst hplus
      rcases ih i' hi' with ⟨kv', h1, h2, h3⟩
      refine ⟨kv', by simpa using h1, h2, ?_⟩
      rw [List.find?_cons_of_neg _ (by simpa using hk)]
      exact h3

theorem flatten_pushAt_perm (c : List (List (Nat × V))) (ix : Nat) (kv : Nat × V)
    (h : ix < c.length) :
    (pushAt c ix kv).flatten.Perm (kv :: c.flatten) := by
  rw [pushAt, flatten_modifyAt _ _ _ h, flatten_decomp c ix h]
  have heq : (c.take ix).flatten ++ (c.getD ix [] ++ [kv]) ++ (c.drop (ix + 1)).flatten
      = ((c.take ix).flatten ++ c.getD ix []) ++ kv :: (c.drop (ix + 1)).flatten := by
    simp [List.append_assoc]
  rw [heq]
  exact List.perm_middle

theorem getD_replicate_nil {α : Type} (n j : Nat) :
    (List.replicate n ([] : List α)).getD j [] = [] := by
  induction n generalizing j with
  | zero => simp
  | succ k ih =>
    cases j with
    | zero => simp [List.replicate]
    | succ p => simpa [List.replicate] using ih p

theorem flatten_replicate_nil {α : Type} (n : Nat) :
    (List.replicate n ([] : List α)).flatten = [] := by
  induction n with
  | zero => simp
  | succ k ih => simpa [List.replicate] using ih

theorem length_distribute (mask : Nat) (c : List (List (Nat × V)))
    (l : List (Nat × V)) : (distribute mask c l).length = c.length := by
  induction l generalizing c with
  | nil => rfl
  | cons kv rest ih =>
    simp only [distribute, List.foldl_cons] at *
    rw [ih]
    exact length_modifyAt _ _ _

theorem flatten_distribute_perm (mask : Nat) (c : List (List (Nat × V)))
    (l : List (Nat × V)) (h : mask < c.length) :
    (distribute mask c l).flatten.Perm (c.flatten ++ l) := by
  induction l generalizing c with
  | nil => simp [distribute]
  | cons kv rest ih =>
    have hix : hash_u64 kv.1 &&& mask < c.length :=
      lt_of_le_of_lt Nat.and_le_right h
    have h2 : mask < (pushAt c (hash_u64 kv.1 &&& mask) kv).length := by
      rw [pushAt, length_modifyAt]; exact h
    have step : (distribute mask c (kv :: rest)) =
        distribute mask (pushAt c (hash_u64 kv.1 &&& mask) kv) rest := by
      simp [distribute]
    rw [step]
    have p1 := ih _ h2
    have p2 := (flatten_pushAt_perm c _ kv hix).append_right rest
    have p3 : ((kv :: c.flatten) ++ rest).Perm (c.flatten ++ kv :: rest) := by
      simpa using List.perm_middle.symm
    exact (p1.trans p2).trans p3

theorem placed_distribute (mask : Nat) (c : List (List (Nat × V)))
    (l : List (Nat × V)) (hlen : mask < c.length)
    (hc : ∀ j, ∀ kv ∈ c.getD j ([] : List (Nat × V)), hash_u64 kv.1 &&& mask = j) :
    ∀ j, ∀ kv ∈ (distribute mask c l).getD j ([] : List (Nat × V)),
      hash_u64 kv.1 &&& mask = j := by
  induction l generalizing c with
  | nil => exact hc
  | cons kv rest ih =>
    have hix : hash_u64 kv.1 &&& mask < c.length :=
      lt_of_le_of_lt Nat.and_le_right hlen
    have step : (distribute mask c (kv :: rest)) =
        distribute mask (pushAt c (hash_u64 kv.1 &&& mask) kv) rest := by
      simp [distribute]
    rw [step]
    refine ih _ (by rw [pushAt, length_modifyAt]; exact hlen) ?_
    intro j kv' hmem
    by_cases hj : j = hash_u64 kv.1 &&& mask
    · subst hj
      rw [pushAt, getD_modifyAt_self _ _ _ _ hix] at hmem
      rcases List.mem_append.1 hmem with h1 | h1
      · exact hc _ _ h1
      · simp only [List.mem_singleton] at h1
        subst h1; rfl
    · rw [pushAt, getD_modifyAt_ne _ _ _ _ _ hj] at hmem
      exact hc _ _ hmem

/-! ### `increase_cache` preserves the structural invariant and the content -/

theorem mask_lt_len_increase (m : IntMap V) :
    2 ^ (m.size + 1) - 1 < (List.replicate (2 ^ (m.size + 1)) ([] : List (Nat × V))).length := by
  rw [List.length_replicate]
  have : 0 < 2 ^ (m.size + 1) := Nat.pos_pow_of_pos _ (by decide)
  omega

theorem flatten_increase_perm (m : IntMap V) :
    (increase_cache m).cache.flatten.Perm m.cache.flatten := by
  have h := flatten_distribute_perm (2 ^ (m.size + 1) - 1)
    (List.replicate (2 ^ (m.size + 1)) ([] : List (Nat × V)))
    m.cache.flatten (mask_lt_len_increase m)
  simpa [increase_cache, flatten_replicate_nil] using h

theorem length_increase (m : IntMap V) :
    (increase_cache m).cache.length = 2 ^ (m.size + 1) := by
  simp [increase_cache, length_distribute]

theorem good_increase_weak (m : IntMap V)
    (hcount : m.count = m.cache.flatten.length)
    (hnodup : (m.cache.flatten.map Prod.fst).Nodup) :
    Good (increase_cache m) := by
  refine ⟨?_, ?_, ?_, ?_, ?_, ?_⟩
  · simp [increase_cache]
  · simpa [increase_cache] using length_increase m
  · rfl
  · rw [show (increase_cache m).count = m.count from rfl, hcount]
    exact ((flatten_increase_perm m).length_eq).symm ▸ rfl
  · exact ((flatten_increase_perm m).map Prod.fst).nodup_iff.2 hnodup
  · intro j kv hmem
    have hp := placed_distribute (2 ^ (m.size + 1) - 1)
      (List.replicate (2 ^ (m.size + 1)) ([] : List (Nat × V)))
      m.cache.flatten (mask_lt_len_increase m)
      (by intro j kv h; rw [getD_replicate_nil] at h; simp at h)
    exact hp j kv hmem

theorem good_increase (m : IntMap V) (hm : Good m) : Good (increase_cache m) :=
  good_increase_weak m hm.count_eq hm.nodup

/-! ### `get` as membership, and the `insert` case analysis -/

theorem calc_index_lt (m : IntMap V) (hm : Good m) (k : Nat) :
    m.calc_index k < m.cache.length := by
  have h1 : m.calc_index k ≤ m.mod_mask := Nat.and_le_right
  have h2 : 0 < 2 ^ m.size := Nat.pos_pow_of_pos _ (by decide)
  have h3 := hm.mask_eq
  rw [hm.len_eq]
  omega

theorem nodup_key_unique {l : List (Nat × V)} (h : (l.map Prod.fst).Nodup)
    {k : Nat} {a b : V} (ha : (k, a) ∈ l) (hb : (k, b) ∈ l) : a = b := by
  induction l with
  | nil => simp at ha
  | cons x xs ih =>
    simp only [List.map_cons, List.nodup_cons] at h
    rcases List.mem_cons.1 ha with ha1 | ha1 <;> rcases List.mem_cons.1 hb with hb1 | hb1
    · rw [← hb1] at ha1
      exact congrArg Prod.snd ha1
    · exfalso
      have hx : x.1 = k := by rw [← ha1]
      refine h.1 ?_
      rw [hx]
      exact List.mem_map.2 ⟨(k, b), hb1, rfl⟩
    · exfalso
      have hx : x.1 = k := by rw [← hb1]
      refine h.1 ?_
      rw [hx]
      exact List.mem_map.2 ⟨(k, a), ha1, rfl⟩
    · exact ih h.2 ha1 hb1

theorem mem_chain_of_get (m : IntMap V) (k : Nat) (v : V) (h : m.get k = some v) :
    (k, v) ∈ m.cache.getD (m.calc_index k) [] := by
  rw [get] at h
  rcases Option.map_eq_some'.1 h with ⟨kv, hfind, hsnd⟩
  have hmem := List.mem_of_find?_eq_some hfind
  have hkey : kv.1 = k := by simpa using List.find?_some hfind
  obtain ⟨k0, v0⟩ := kv
  dsimp at hkey hsnd
  subst hkey; subst hsnd
  exact hmem

theorem get_eq_some_iff_mem (m : IntMap V) (hm : Good m) (k : Nat) (v : V) :
    m.get k = some v ↔ (k, v) ∈ m.cache.flatten := by
  constructor
  · intro h
    exact mem_flatten_of_getD _ _ (mem_chain_of_get m k v h)
  · intro h
    rcases exists_getD_of_mem_flatten _ h with ⟨j, _, hmem⟩
    have hplaced : m.calc_index k = j := hm.placed j (k, v) hmem
    rw [← hplaced] at hmem
    have hex : ∃ kv0, (m.cache.getD (m.calc_index k) []).find? (fun kv => kv.1 == k)
        = some kv0 := by
      cases hf : (m.cache.getD (m.calc_index k) []).find? (fun kv => kv.1 == k) with
      | none =>
        exact absurd (by simp : ((k, v).1 == k) = true)
          (by simpa using List.find?_eq_none.1 hf (k, v) hmem)
      | some kv0 => exact ⟨kv0, rfl⟩
    rcases hex with ⟨kv0, hf⟩
    have hkv0mem := List.mem_of_find?_eq_some hf
    have hkv0key : kv0.1 = k := by simpa using List.find?_some hf
    have hkv0flat : kv0 ∈ m.cache.flatten := mem_flatten_of_getD _ _ hkv0mem
    obtain ⟨k0, v0⟩ := kv0
    dsimp at hkv0key
    subst hkv0key
    have hv : v0 = v := nodup_key_unique hm.nodup hkv0flat h
    rw [get, hf, hv]
    rfl

theorem get_eq_none_iff (m : IntMap V) (hm : Good m) (k : Nat) :
    m.get k = none ↔ ∀ v, (k, v) ∉ m.cache.flatten := by
  constructor
  · intro h v hmem
    have hs := (get_eq_some_iff_mem m hm k v).2 hmem
    rw [h] at hs
    exact Option.noConfusion hs
  · intro h
    cases hg : m.get k with
    | none => rfl
    | some v => exact absurd ((get_eq_some_iff_mem m hm k v).1 hg) (h v)

theorem get_increase (m : IntMap V) (hm : Good m) (k : Nat) :
    (increase_cache m).get k = m.get k := by
  have hm' := good_increase m hm
  have hperm := flatten_increase_perm m
  cases hg : m.get k with
  | some v =>
    exact (get_eq_some_iff_mem _ hm' k v).2
      (hperm.mem_iff.2 ((get_eq_some_iff_mem m hm k v).1 hg))
  | none =>
    rw [get_eq_none_iff _ hm']
    intro v hmem
    exact (get_eq_none_iff m hm k).1 hg v (hperm.mem_iff.1 hmem)

theorem any_eq_isSome (m : IntMap V) (k : Nat) :
    ((m.cache.getD (m.calc_index k) []).any (fun kv => kv.1 == k))
      = (m.get k).isSome := by
  rw [get, Option.isSome_map', Bool.eq_iff_iff, List.any_eq_true, List.find?_isSome]

theorem insert_eq (m : IntMap V) (k : Nat) (v : V) :
    m.insert k v =
      if (m.get k).isSome then (false, m)
      else if (m.count + 1) &&& 4 == 4 then
        (true, ensure_load_rate (plain_insert m k v))
      else (true, plain_insert m k v) := by
  simp only [insert, plain_insert, any_eq_isSome]

theorem insert_fst (m : IntMap V) (k : Nat) (v : V) :
    (m.insert k v).1 = !(m.get k).isSome := by
  rw [insert_eq]
  cases h : (m.get k).isSome with
  | true => simp
  | false =>
    simp only [Bool.false_eq_true, if_false, Bool.not_false]
    by_cases h4 : (m.count + 1) &&& 4 == 4 <;> simp [h4]

/-! ### `plain_insert` and the growth loop -/

theorem not_mem_keys_of_get_none (m : IntMap V) (hm : Good m) (k : Nat)
    (habs : m.get k = none) : k ∉ m.cache.flatten.map Prod.fst := by
  intro hk
  rcases List.mem_map.1 hk with ⟨kv, hmem, hfst⟩
  obtain ⟨k0, v0⟩ := kv
  dsimp at hfst
  rw [hfst] at hmem
  exact (get_eq_none_iff m hm k).1 habs v0 hmem

theorem good_plain_insert (m : IntMap V) (k : Nat) (v : V) (hm : Good m)
    (habs : m.get k = none) : Good (plain_insert m k v) := by
  have hix : m.calc_index k < m.cache.length := calc_index_lt m hm k
  have hperm := flatten_pushAt_perm m.cache (m.calc_index k) (k, v) hix
  refine ⟨hm.size_pos, ?_, hm.mask_eq, ?_, ?_, ?_⟩
  · rw [show (plain_insert m k v).cache = pushAt m.cache (m.calc_index k) (k, v) from rfl,
      pushAt, length_modifyAt]
    exact hm.len_eq
  · rw [show (plain_insert m k v).count = m.count + 1 from rfl,
      show (plain_insert m k v).cache = pushAt m.cache (m.calc_index k) (k, v) from rfl,
      hperm.length_eq, List.length_cons, hm.count_eq]
  · refine (hperm.map Prod.fst).nodup_iff.2 ?_
    rw [List.map_cons, List.nodup_cons]
    exact ⟨not_mem_keys_of_get_none m hm k habs, hm.nodup⟩
  · intro j kv hmem
    by_cases hj : j = m.calc_index k
    · subst hj
      rw [show (plain_insert m k v).cache = pushAt m.cache (m.calc_index k) (k, v) from rfl,
        pushAt, getD_modifyAt_self _ _ _ _ hix] at hmem
      rcases List.mem_append.1 hmem with h1 | h1
      · exact hm.placed _ kv h1
      · simp only [List.mem_singleton] at h1
        subst h1
        rfl
    · rw [show (plain_insert m k v).cache = pushAt m.cache (m.calc_index k) (k, v) from rfl,
        pushAt, getD_modifyAt_ne _ _ _ _ _ hj] at hmem
      exact hm.placed _ kv hmem

theorem get_plain_insert_self (m : IntMap V) (k : Nat) (v : V) (hm : Good m)
    (habs : m.get k = none) : (plain_insert m k v).get k = some v := by
  have hix : m.calc_index k < m.cache.length := calc_index_lt m hm k
  have hfn : (m.cache.getD (m.calc_index k) []).find? (fun kv => kv.1 == k) = none :=
    Option.map_eq_none'.1 habs
  rw [get]
  rw [show (plain_insert m k v).calc_index k = m.calc_index k from rfl,
    show (plain_insert m k v).cache = pushAt m.cache (m.calc_index k) (k, v) from rfl,
    pushAt, getD_modifyAt_self _ _ _ _ hix, List.find?_append, hfn, Option.none_or]
  simp

theorem get_plain_insert_ne (m : IntMap V) (k k' : Nat) (v : V) (hm : Good m)
    (hne : k' ≠ k) : (plain_insert m k v).get k' = m.get k' := by
  rw [get, get]
  rw [show (plain_insert m k v).calc_index k' = m.calc_index k' from rfl,
    show (plain_insert m k v).cache = pushAt m.cache (m.calc_index k) (k, v) from rfl]
  by_cases hj : m.calc_index k' = m.calc_index k
  · have hix : m.calc_index k < m.cache.length := calc_index_lt m hm k
    rw [hj, pushAt, getD_modifyAt_self _ _ _ _ hix, List.find?_append]
    have h1 : [(k, v)].find? (fun kv => kv.1 == k') = none := by
      simp [Ne.symm hne]
    rw [h1, Option.or_none]
  · rw [pushAt, getD_modifyAt_ne _ _ _ _ _ hj]

theorem ensure_fuel_count (fuel : Nat) (m : IntMap V) :
    (ensure_fuel fuel m).count = m.count := by
  induction fuel generalizing m with
  | zero => rfl
  | succ f ih =>
    simp only [ensure_fuel]
    by_cases h : overloaded m
    · rw [if_pos h, ih]
      rfl
    · rw [if_neg h]

theorem ensure_fuel_good (fuel : Nat) (m : IntMap V) (hm : Good m) :
    Good (ensure_fuel fuel m) := by
  induction fuel generalizing m with
  | zero => exact hm
  | succ f ih =>
    simp only [ensure_fuel]
    by_cases h : overloaded m
    · rw [if_pos h]
      exact ih _ (good_increase m hm)
    · rw [if_neg h]
      exact hm

theorem ensure_fuel_get (fuel : Nat) (m : IntMap V) (hm : Good m) (k : Nat) :
    (ensure_fuel fuel m).get k = m.get k := by
  induction fuel generalizing m with
  | zero => rfl
  | succ f ih =>
    simp only [ensure_fuel]
    by_cases h : overloaded m
    · rw [if_pos h, ih _ (good_increase m hm), get_increase m hm]
    · rw [if_neg h]

theorem ensure_fuel_len_eq (fuel : Nat) (m : IntMap V)
    (h : m.cache.length = 2 ^ m.size) :
    (ensure_fuel fuel m).cache.length = 2 ^ (ensure_fuel fuel m).size := by
  induction fuel generalizing m with
  | zero => exact h
  | succ f ih =>
    simp only [ensure_fuel]
    by_cases hov : overloaded m
    · rw [if_pos hov]
      exact ih _ (length_increase m)
    · rw [if_neg hov]
      exact h

theorem ensure_fuel_len_mono (fuel : Nat) (m : IntMap V)
    (h : m.cache.length = 2 ^ m.size) :
    m.cache.length ≤ (ensure_fuel fuel m).cache.length := by
  induction fuel generalizing m with
  | zero => exact Nat.le_refl _
  | succ f ih =>
    simp only [ensure_fuel]
    by_cases hov : overloaded m
    · rw [if_pos hov]
      refine le_trans ?_ (ih _ (length_increase m))
      rw [length_increase, h]
      exact Nat.pow_le_pow_right (by decide) (Nat.le_succ _)
    · rw [if_neg hov]

theorem ensure_fuel_of_not (fuel : Nat) (m : IntMap V) (h : overloaded m = false) :
    ensure_fuel fuel m = m := by
  cases fuel with
  | zero => rfl
  | succ f => simp [ensure_fuel, h]

theorem not_overloaded_of_le (m : IntMap V) (h : 2 * m.count + 1 ≤ m.cache.length) :
    overloaded m = false := by
  rw [overloaded, decide_eq_false_iff_not]
  intro hlt
  have hlen : 0 < m.cache.length := by omega
  have h71 : 71 * m.cache.length ≤ m.count * 100 :=
    (Nat.le_div_iff_mul_le hlen).1 hlt
  omega

theorem ensure_fuel_stable (j : Nat) :
    ∀ (fuel : Nat) (m : IntMap V), m.cache.length = 2 ^ m.size →
      2 * m.count + 1 ≤ 2 ^ m.size * 2 ^ j → j ≤ fuel →
      ensure_fuel fuel m = ensure_fuel j m ∧
        overloaded (ensure_fuel j m) = false := by
  induction j with
  | zero =>
    intro fuel m hlen hle _
    simp only [pow_zero, Nat.mul_one] at hle
    have hno : overloaded m = false := not_overloaded_of_le m (by omega)
    rw [ensure_fuel_of_not fuel m hno]
    exact ⟨rfl, hno⟩
  | succ j ih =>
    intro fuel m hlen hle hfuel
    obtain ⟨f, rfl⟩ : ∃ f, fuel = f + 1 := ⟨fuel - 1, by omega⟩
    by_cases hov : overloaded m
    · simp only [ensure_fuel, if_pos hov]
      have hlen' : (increase_cache m).cache.length = 2 ^ (increase_cache m).size :=
        length_increase m
      have hle' : 2 * (increase_cache m).count + 1
          ≤ 2 ^ (increase_cache m).size * 2 ^ j := by
        show 2 * m.count + 1 ≤ 2 ^ (m.size + 1) * 2 ^ j
        have heq : 2 ^ (m.size + 1) * 2 ^ j = 2 ^ m.size * 2 ^ (j + 1) := by ring
        rw [heq]
        exact hle
      exact ih f (increase_cache m) hlen' hle' (by omega)
    · have hovf : overloaded m = false := by simpa using hov
      constructor
      · rw [ensure_fuel_of_not _ _ hovf, ensure_fuel_of_not _ _ hovf]
      · rw [ensure_fuel_of_not _ _ hovf]
        exact hovf

theorem two_mul_succ_le_two_pow (c : Nat) : 2 * c + 1 ≤ 2 ^ (c + 1) := by
  have h := Nat.lt_two_pow c
  have : 2 ^ (c + 1) = 2 * 2 ^ c := by ring
  omega

theorem stable_hyp (s c : Nat) : 2 * c + 1 ≤ 2 ^ s * 2 ^ (c + 1) := by
  have h1 := two_mul_succ_le_two_pow c
  have h2 : 2 ^ (c + 1) ≤ 2 ^ s * 2 ^ (c + 1) :=
    Nat.le_mul_of_pos_left _ (Nat.pos_pow_of_pos _ (by decide))
  omega

theorem ensure_not_overloaded (m : IntMap V) (hlen : m.cache.length = 2 ^ m.size) :
    overloaded (ensure_load_rate m) = false := by
  have h := ensure_fuel_stable (m.count + 1) (m.count + 2) m hlen
    (stable_hyp m.size m.count) (by omega)
  rw [ensure_load_rate, h.1]
  exact h.2

theorem ensure_eq_of_overloaded (m : IntMap V) (_hlen : m.cache.length = 2 ^ m.size)
    (hov : overloaded m = true) :
    ensure_load_rate m = ensure_load_rate (increase_cache m) := by
  have hstep : ensure_load_rate m = ensure_fuel (m.count + 1) (increase_cache m) := by
    rw [ensure_load_rate]
    simp only [ensure_fuel, if_pos hov]
  have hc : (increase_cache m).count = m.count := rfl
  have h1 := ensure_fuel_stable (m.count + 1) (m.count + 1) (increase_cache m)
    (length_increase m) (by rw [hc]; exact stable_hyp _ _) (Nat.le_refl _)
  have h2 := ensure_fuel_stable (m.count + 1) (m.count + 2) (increase_cache m)
    (length_increase m) (by rw [hc]; exact stable_hyp _ _) (by omega)
  rw [hstep, h1.1, show ensure_load_rate (increase_cache m)
    = ensure_fuel (m.count + 2) (increase_cache m) from rfl, h2.1]

theorem ensure_of_not_overloaded (m : IntMap V) (h : overloaded m = false) :
    ensure_load_rate m = m := ensure_fuel_of_not _ _ h

/-! ### `insert`: invariant preservation and lookup behaviour -/

theorem isSome_false_eq_none {o : Option V} (h : o.isSome = false) : o = none := by
  cases o with
  | none => rfl
  | some v => simp at h

theorem good_insert (m : IntMap V) (k : Nat) (v : V) (hm : Good m) :
    Good ((m.insert k v).2) := by
  rw [insert_eq]
  cases hg : (m.get k).isSome with
  | true => simpa using hm
  | false =>
    have habs : m.get k = none := isSome_false_eq_none hg
    have hgood := good_plain_insert m k v hm habs
    by_cases h4 : ((m.count + 1) &&& 4 == 4 : Bool)
    · simp only [Bool.false_eq_true, if_false, h4, if_true]
      exact ensure_fuel_good _ _ hgood
    · simp only [Bool.false_eq_true, if_false, h4]
      exact hgood

theorem get_insert_self (m : IntMap V) (k : Nat) (v : V) (hm : Good m)
    (habs : m.get k = none) : ((m.insert k v).2).get k = some v := by
  have hg : (m.get k).isSome = false := by rw [habs]; rfl
  have hgood := good_plain_insert m k v hm habs
  rw [insert_eq]
  by_cases h4 : ((m.count + 1) &&& 4 == 4 : Bool)
  · simp only [hg, Bool.false_eq_true, if_false, h4, if_true]
    rw [show ensure_load_rate (plain_insert m k v)
      = ensure_fuel ((plain_insert m k v).count + 2) (plain_insert m k v) from rfl,
      ensure_fuel_get _ _ hgood]
    exact get_plain_insert_self m k v hm habs
  · simp only [hg, Bool.false_eq_true, if_false, h4]
    exact get_plain_insert_self m k v hm habs

theorem get_insert_ne (m : IntMap V) (k k' : Nat) (v : V) (hm : Good m)
    (hne : k' ≠ k) : ((m.insert k v).2).get k' = m.get k' := by
  rw [insert_eq]
  cases hg : (m.get k).isSome with
  | true => simp
  | false =>
    have habs : m.get k = none := isSome_false_eq_none hg
    have hgood := good_plain_insert m k v hm habs
    by_cases h4 : ((m.count + 1) &&& 4 == 4 : Bool)
    · simp only [Bool.false_eq_true, if_false, h4, if_true]
      rw [show ensure_load_rate (plain_insert m k v)
        = ensure_fuel ((plain_insert m k v).count + 2) (plain_insert m k v) from rfl,
        ensure_fuel_get _ _ hgood]
      exact get_plain_insert_ne m k k' v hm hne
    · simp only [Bool.false_eq_true, if_false, h4]
      exact get_plain_insert_ne m k k' v hm hne

theorem length_insert_mono (m : IntMap V) (k : Nat) (v : V)
    (hlen : m.cache.length = 2 ^ m.size) :
    m.cache.length ≤ ((m.insert k v).2).cache.length := by
  have hplen : (plain_insert m k v).cache.length = m.cache.length := by
    rw [show (plain_insert m k v).cache = pushAt m.cache (m.calc_index k) (k, v) from rfl,
      pushAt, length_modifyAt]
  rw [insert_eq]
  cases hg : (m.get k).isSome with
  | true => simp
  | false =>
    by_cases h4 : ((m.count + 1) &&& 4 == 4 : Bool)
    · simp only [Bool.false_eq_true, if_false, h4, if_true]
      rw [show ensure_load_rate (plain_insert m k v)
        = ensure_fuel ((plain_insert m k v).count + 2) (plain_insert m k v) from rfl]
      refine le_trans (le_of_eq hplen.symm) ?_
      exact ensure_fuel_len_mono _ _ (by rw [hplen, hlen]; rfl)
    · simp only [Bool.false_eq_true, if_false, h4]
      exact le_of_eq hplen.symm

/-! ### `remove`: case analysis, invariant preservation, lookup behaviour -/

theorem flatten_replaceAt_perm {α : Type} (c : List (List α)) (i : Nat) (x : α)
    (l' : List α) (hi : i < c.length) (hperm : (c.getD i []).Perm (x :: l')) :
    c.flatten.Perm (x :: (modifyAt c i (fun _ => l')).flatten) := by
  rw [flatten_modifyAt _ _ _ hi, flatten_decomp c i hi]
  have h1 : ((c.take i).flatten ++ c.getD i [] ++ (c.drop (i + 1)).flatten).Perm
      ((c.take i).flatten ++ (x :: l') ++ (c.drop (i + 1)).flatten) :=
    (hperm.append_left _).append_right _
  refine h1.trans ?_
  have heq : (c.take i).flatten ++ (x :: l') ++ (c.drop (i + 1)).flatten
      = (c.take i).flatten ++ x :: (l' ++ (c.drop (i + 1)).flatten) := by
    simp [List.append_assoc]
  rw [heq]
  refine List.perm_middle.trans ?_
  rw [List.append_assoc]

theorem remove_eq_none_case (m : IntMap V) (k : Nat)
    (h : findIndex k (m.cache.getD (m.calc_index k) []) = none) :
    m.remove k = (none, m) := by
  simp only [remove, h]

theorem remove_eq_some_case (m : IntMap V) (k : Nat) (i : Nat) (kv : Nat × V)
    (hfi : findIndex k (m.cache.getD (m.calc_index k) []) = some i)
    (hget : (m.cache.getD (m.calc_index k) [])[i]? = some kv) :
    m.remove k = (some kv.2,
      { m with count := m.count - 1,
               cache := modifyAt m.cache (m.calc_index k)
                 (fun _ => swap_remove (m.cache.getD (m.calc_index k) []) i) }) := by
  simp only [remove, hfi, hget]

theorem findIndex_none_iff_get_none (m : IntMap V) (k : Nat) :
    findIndex k (m.cache.getD (m.calc_index k) []) = none ↔ m.get k = none := by
  rw [findIndex_eq_none_iff, get, Option.map_eq_none', List.find?_eq_none]
  simp

theorem remove_of_absent (m : IntMap V) (k : Nat) (h : m.get k = none) :
    m.remove k = (none, m) :=
  remove_eq_none_case m k ((findIndex_none_iff_get_none m k).2 h)

theorem remove_fst (m : IntMap V) (k : Nat) : (m.remove k).1 = m.get k := by
  cases hfi : findIndex k (m.cache.getD (m.calc_index k) []) with
  | none =>
    rw [remove_eq_none_case m k hfi, (findIndex_none_iff_get_none m k).1 hfi]
  | some i =>
    rcases findIndex_some k _ i hfi with ⟨kv, hget, _, hfind⟩
    rw [remove_eq_some_case m k i kv hfi hget, get, hfind]
    rfl

theorem good_remove (m : IntMap V) (k : Nat) (hm : Good m) :
    Good ((m.remove k).2) := by
  cases hfi : findIndex k (m.cache.getD (m.calc_index k) []) with
  | none => rw [remove_eq_none_case m k hfi]; exact hm
  | some i =>
    rcases findIndex_some k _ i hfi with ⟨kv, hget, _, _⟩
    rw [remove_eq_some_case m k i kv hfi hget]
    have hix := calc_index_lt m hm k
    have hperm := swap_remove_perm _ i kv hget
    have hflat := flatten_replaceAt_perm m.cache (m.calc_index k) kv
      (swap_remove (m.cache.getD (m.calc_index k) []) i) hix hperm
    have hcnt : m.count = m.cache.flatten.length := hm.count_eq
    have hlen2 := hflat.length_eq
    rw [List.length_cons] at hlen2
    refine ⟨hm.size_pos, ?_, hm.mask_eq, ?_, ?_, ?_⟩
    · show (modifyAt m.cache (m.calc_index k) _).length = 2 ^ m.size
      rw [length_modifyAt]
      exact hm.len_eq
    · show m.count - 1
        = (modifyAt m.cache (m.calc_index k)
            (fun _ => swap_remove (m.cache.getD (m.calc_index k) []) i)).flatten.length
      omega
    · have hkeys := hflat.map Prod.fst
      rw [List.map_cons] at hkeys
      exact (List.nodup_cons.1 (hkeys.nodup_iff.1 hm.nodup)).2
    · intro j kv' hmem
      by_cases hj : j = m.calc_index k
      · subst hj
        rw [getD_modifyAt_self _ _ _ _ hix] at hmem
        have hv : kv' ∈ m.cache.getD (m.calc_index k) [] :=
          hperm.mem_iff.2 (List.mem_cons_of_mem _ hmem)
        exact hm.placed _ kv' hv
      · rw [getD_modifyAt_ne _ _ _ _ _ hj] at hmem
        exact hm.placed _ kv' hmem

theorem get_remove_self (m : IntMap V) (k : Nat) (hm : Good m) :
    ((m.remove k).2).get k = none := by
  cases hfi : findIndex k (m.cache.getD (m.calc_index k) []) with
  | none =>
    rw [remove_eq_none_case m k hfi]
    exact (findIndex_none_iff_get_none m k).1 hfi
  | some i =>
    rcases findIndex_some k _ i hfi with ⟨kv, hget, hkey, _⟩
    rw [remove_eq_some_case m k i kv hfi hget]
    have hix := calc_index_lt m hm k
    have hperm := swap_remove_perm _ i kv hget
    have hflat := flatten_replaceAt_perm m.cache (m.calc_index k) kv
      (swap_remove (m.cache.getD (m.calc_index k) []) i) hix hperm
    have hkeys := hflat.map Prod.fst
    rw [List.map_cons] at hkeys
    have hnot : kv.1 ∉ (modifyAt m.cache (m.calc_index k)
        (fun _ => swap_remove (m.cache.getD (m.calc_index k) []) i)).flatten.map
          Prod.fst :=
      (List.nodup_cons.1 (hkeys.nodup_iff.1 hm.nodup)).1
    rw [get]
    have hchain : (modifyAt m.cache (m.calc_index k)
        (fun _ => swap_remove (m.cache.getD (m.calc_index k) []) i)).getD
          (m.calc_index k) []
        = swap_remove (m.cache.getD (m.calc_index k) []) i :=
      getD_modifyAt_self _ _ _ _ hix
    show ((modifyAt m.cache (m.calc_index k) _).getD (m.calc_index k) [] |>.find?
      (fun kv => kv.1 == k)).map Prod.snd = none
    rw [hchain]
    have hfn : (swap_remove (m.cache.getD (m.calc_index k) []) i).find?
        (fun kv => kv.1 == k) = none := by
      rw [List.find?_eq_none]
      intro x hx hbeq
      refine hnot ?_
      have hxk : x.1 = k := by simpa using hbeq
      rw [hkey]
      refine List.mem_map.2 ⟨x, ?_, hxk⟩
      exact mem_flatten_of_getD _ (m.calc_index k) (by rw [hchain]; exact hx)
    rw [hfn]
    rfl

theorem remove_count (m : IntMap V) (k : Nat) (hm : Good m) (v : V)
    (h : m.get k = some v) : ((m.remove k).2).count + 1 = m.count := by
  cases hfi : findIndex k (m.cache.getD (m.calc_index k) []) with
  | none =>
    rw [(findIndex_none_iff_get_none m k).1 hfi] at h
    exact Option.noConfusion h
  | some i =>
    rcases findIndex_some k _ i hfi with ⟨kv, hget, _, _⟩
    rw [remove_eq_some_case m k i kv hfi hget]
    have hix := calc_index_lt m hm k
    have hperm := swap_remove_perm _ i kv hget
    have hflat := flatten_replaceAt_perm m.cache (m.calc_index k) kv
      (swap_remove (m.cache.getD (m.calc_index k) []) i) hix hperm
    have hcnt : m.count = m.cache.flatten.length := hm.count_eq
    have hlen2 := hflat.length_eq
    rw [List.length_cons] at hlen2
    show m.count - 1 + 1 = m.count
    omega

/-! ### `clear`, `retain`, and the capacity loops -/

theorem getD_map_nil (c : List (List (Nat × V))) (j : Nat) :
    (c.map (fun _ => ([] : List (Nat × V)))).getD j [] = [] := by
  induction c generalizing j with
  | nil => simp
  | cons x xs ih =>
    cases j with
    | zero => simp
    | succ n => simpa using ih n

theorem flatten_map_nil (c : List (List (Nat × V))) :
    (c.map (fun _ => ([] : List (Nat × V)))).flatten = [] := by
  induction c with
  | nil => simp
  | cons x xs ih => simpa using ih

theorem good_clear (m : IntMap V) (hm : Good m) : Good (m.clear) := by
  refine ⟨hm.size_pos, ?_, hm.mask_eq, ?_, ?_, ?_⟩
  · show (m.cache.map _).length = 2 ^ m.size
    rw [List.length_map]
    exact hm.len_eq
  · show 0 = (m.cache.map _).flatten.length
    rw [flatten_map_nil]
    rfl
  · show ((m.cache.map _).flatten.map Prod.fst).Nodup
    rw [flatten_map_nil]
    simp
  · intro j kv hmem
    rw [show (m.clear).cache = m.cache.map (fun _ => []) from rfl, getD_map_nil] at hmem
    simp at hmem

theorem getD_map_filter (c : List (List (Nat × V))) (p : Nat × V → Bool) (j : Nat) :
    (c.map (fun vals => vals.filter p)).getD j [] = (c.getD j []).filter p := by
  induction c generalizing j with
  | nil => simp
  | cons x xs ih =>
    cases j with
    | zero => simp
    | succ n => simpa using ih n

theorem flatten_map_filter (c : List (List (Nat × V))) (p : Nat × V → Bool) :
    (c.map (fun vals => vals.filter p)).flatten = c.flatten.filter p := by
  induction c with
  | nil => simp
  | cons x xs ih =>
    rw [List.map_cons, List.flatten_cons, List.flatten_cons, List.filter_append, ih]

theorem good_retain (m : IntMap V) (f : Nat → V → Bool) (hm : Good m) :
    Good (m.retain f) := by
  have hflt := flatten_map_filter m.cache (fun kv => f kv.1 kv.2)
  have hsub : (m.cache.flatten.filter (fun kv => f kv.1 kv.2)).Sublist
      m.cache.flatten := List.filter_sublist _
  have hle := hsub.length_le
  refine ⟨hm.size_pos, ?_, hm.mask_eq, ?_, ?_, ?_⟩
  · show (m.cache.map _).length = 2 ^ m.size
    rw [List.length_map]
    exact hm.len_eq
  · show m.count - (m.cache.flatten.length
        - (m.cache.map (fun vals => vals.filter (fun kv => f kv.1 kv.2))).flatten.length)
      = (m.cache.map (fun vals => vals.filter (fun kv => f kv.1 kv.2))).flatten.length
    rw [hflt]
    have hcnt := hm.count_eq
    omega
  · show ((m.cache.map (fun vals => vals.filter (fun kv => f kv.1 kv.2))).flatten.map
      Prod.fst).Nodup
    rw [hflt]
    exact ((hsub.map Prod.fst).nodup hm.nodup)
  · intro j kv hmem
    rw [show (m.retain f).cache
        = m.cache.map (fun vals => vals.filter (fun kv => f kv.1 kv.2)) from rfl,
      getD_map_filter] at hmem
    exact hm.placed j kv (List.mem_of_mem_filter hmem)

theorem grow_fuel_of_not (fuel : Nat) (m : IntMap V) (cap : Nat)
    (h : ¬ m.lim < cap) : grow_fuel fuel m cap = m := by
  cases fuel with
  | zero => rfl
  | succ f => simp [grow_fuel, h]

theorem grow_fuel_count (fuel : Nat) (m : IntMap V) (cap : Nat) :
    (grow_fuel fuel m cap).count = m.count := by
  induction fuel generalizing m with
  | zero => rfl
  | succ f ih =>
    simp only [grow_fuel]
    by_cases h : m.lim < cap
    · rw [if_pos h, ih]
      rfl
    · rw [if_neg h]

theorem grow_fuel_good (fuel : Nat) (m : IntMap V) (cap : Nat) (hm : Good m) :
    Good (grow_fuel fuel m cap) := by
  induction fuel generalizing m with
  | zero => exact hm
  | succ f ih =>
    simp only [grow_fuel]
    by_cases h : m.lim < cap
    · rw [if_pos h]
      exact ih _ (good_increase m hm)
    · rw [if_neg h]
      exact hm

theorem grow_fuel_stable (j : Nat) :
    ∀ (fuel : Nat) (m : IntMap V) (cap : Nat), cap ≤ 2 ^ m.size * 2 ^ j →
      j ≤ fuel →
      grow_fuel fuel m cap = grow_fuel j m cap ∧
        ¬ (grow_fuel j m cap).lim < cap := by
  induction j with
  | zero =>
    intro fuel m cap hle _
    simp only [pow_zero, Nat.mul_one] at hle
    have hno : ¬ m.lim < cap := by simp only [lim]; omega
    rw [grow_fuel_of_not fuel m cap hno]
    exact ⟨rfl, hno⟩
  | succ j ih =>
    intro fuel m cap hle hfuel
    obtain ⟨f, rfl⟩ : ∃ f, fuel = f + 1 := ⟨fuel - 1, by omega⟩
    by_cases h : m.lim < cap
    · simp only [grow_fuel, if_pos h]
      refine ih f (increase_cache m) cap ?_ (by omega)
      show cap ≤ 2 ^ (m.size + 1) * 2 ^ j
      have heq : 2 ^ (m.size + 1) * 2 ^ j = 2 ^ m.size * 2 ^ (j + 1) := by ring
      rw [heq]
      exact hle
    · constructor
      · rw [grow_fuel_of_not _ _ _ h, grow_fuel_of_not _ _ _ h]
      · rw [grow_fuel_of_not _ _ _ h]
        exact h

theorem grow_cap_le (s c : Nat) : c ≤ 2 ^ s * 2 ^ c := by
  have h1 := Nat.lt_two_pow c
  have h2 : 2 ^ c ≤ 2 ^ s * 2 ^ c :=
    Nat.le_mul_of_pos_left _ (Nat.pos_pow_of_pos _ (by decide))
  omega

theorem grow_til_count (m : IntMap V) (cap : Nat) :
    (grow_til m cap).count = m.count := grow_fuel_count _ _ _

theorem grow_til_good (m : IntMap V) (cap : Nat) (hm : Good m) :
    Good (grow_til m cap) := grow_fuel_good _ _ _ hm

theorem grow_til_lim_ge (m : IntMap V) (cap : Nat) : cap ≤ (grow_til m cap).lim := by
  have h := grow_fuel_stable cap cap m cap (grow_cap_le _ _) (Nat.le_refl _)
  rw [grow_til, h.1]
  exact Nat.le_of_not_lt h.2

theorem grow_fuel_len_mono (fuel : Nat) (m : IntMap V) (cap : Nat) :
    m.cache.length = 2 ^ m.size →
      m.cache.length ≤ (grow_fuel fuel m cap).cache.length := by
  induction fuel generalizing m with
  | zero =>
    intro _
    exact Nat.le_refl _
  | succ f ih =>
    intro hlen
    simp only [grow_fuel]
    by_cases h : m.lim < cap
    · rw [if_pos h]
      refine le_trans ?_ (ih _ (length_increase m))
      rw [length_increase, hlen]
      exact Nat.pow_le_pow_right (by decide) (Nat.le_succ _)
    · rw [if_neg h]

theorem grow_til_len_mono (m : IntMap V) (cap : Nat) :
    m.cache.length = 2 ^ m.size → m.cache.length ≤ (grow_til m cap).cache.length :=
  grow_fuel_len_mono _ _ _

theorem good_base :
    Good (increase_cache ({ cache := [], size := 0, mod_mask := 0, count := 0 } :
      IntMap V)) :=
  good_increase_weak _ rfl (by simp)

theorem good_with_capacity (c : Nat) : Good (with_capacity c : IntMap V) :=
  grow_til_good _ _ good_base

theorem good_new : Good (new : IntMap V) := good_with_capacity 4

theorem with_capacity_count (c : Nat) : (with_capacity c : IntMap V).count = 0 := by
  rw [with_capacity, grow_til_count]
  rfl

theorem flatten_nil_of_count_zero (m : IntMap V) (hm : Good m) (h : m.count = 0) :
    m.cache.flatten = [] := by
  have hc := hm.count_eq
  rw [h] at hc
  exact List.length_eq_zero.1 hc.symm

theorem get_of_flatten_nil (m : IntMap V) (h : m.cache.flatten = []) (k : Nat) :
    m.get k = none := by
  have hchain : m.cache.getD (m.calc_index k) [] = [] := by
    cases hc : m.cache.getD (m.calc_index k) [] with
    | nil => rfl
    | cons x xs =>
      have hx : x ∈ m.cache.flatten := by
        refine mem_flatten_of_getD _ (m.calc_index k) ?_
        rw [hc]
        exact List.mem_cons_self x xs
      rw [h] at hx
      simp at hx
  rw [get, hchain]
  rfl

theorem get_with_capacity (c k : Nat) : (with_capacity c : IntMap V).get k = none :=
  get_of_flatten_nil _
    (flatten_nil_of_count_zero _ (good_with_capacity c) (with_capacity_count c)) k

/-! ### Sequences of insertions -/

theorem insertAll_cons (m : IntMap V) (kv : Nat × V) (rest : List (Nat × V)) :
    insertAll m (kv :: rest) = insertAll ((m.insert kv.1 kv.2).2) rest := rfl

theorem good_insertAll (m : IntMap V) (l : List (Nat × V)) (hm : Good m) :
    Good (insertAll m l) := by
  induction l generalizing m with
  | nil => exact hm
  | cons kv rest ih =>
    rw [insertAll_cons]
    exact ih _ (good_insert m kv.1 kv.2 hm)

theorem get_insertAll_preserved (m : IntMap V) (l : List (Nat × V)) (k : Nat) (v : V)
    (hm : Good m) (hget : m.get k = some v) (hnk : ∀ kv ∈ l, kv.1 ≠ k) :
    (insertAll m l).get k = some v := by
  induction l generalizing m with
  | nil => exact hget
  | cons kv rest ih =>
    rw [insertAll_cons]
    have hne : k ≠ kv.1 := fun he => (hnk kv (List.mem_cons_self _ _)) he.symm
    refine ih _ (good_insert _ _ _ hm) ?_
      (fun kv' h' => hnk kv' (List.mem_cons_of_mem _ h'))
    rw [get_insert_ne m kv.1 k kv.2 hm hne]
    exact hget

theorem get_insertAll_of_nodup (m : IntMap V) (l : List (Nat × V)) (hm : Good m)
    (hnd : (l.map Prod.fst).Nodup) (habs : ∀ kv ∈ l, m.get kv.1 = none) :
    ∀ kv ∈ l, (insertAll m l).get kv.1 = some kv.2 := by
  induction l generalizing m with
  | nil =>
    intro kv h
    simp at h
  | cons kv0 rest ih =>
    intro kv hkv
    rw [insertAll_cons]
    have hm' := good_insert m kv0.1 kv0.2 hm
    have habs0 : m.get kv0.1 = none := habs kv0 (List.mem_cons_self _ _)
    rw [List.map_cons, List.nodup_cons] at hnd
    rcases List.mem_cons.1 hkv with heq | hkv'
    · subst heq
      have hself : ((m.insert kv.1 kv.2).2).get kv.1 = some kv.2 :=
        get_insert_self m kv.1 kv.2 hm habs0
      refine get_insertAll_preserved _ rest kv.1 kv.2 hm' hself ?_
      intro kv' h' he
      refine hnd.1 ?_
      rw [← he]
      exact List.mem_map.2 ⟨kv', h', rfl⟩
    · refine ih _ hm' hnd.2 ?_ kv hkv'
      intro kv' h'
      have hne : kv'.1 ≠ kv0.1 := by
        intro he
        refine hnd.1 ?_
        rw [← he]
        exact List.mem_map.2 ⟨kv', h', rfl⟩
      rw [get_insert_ne m kv0.1 kv'.1 kv0.2 hm hne]
      exact habs kv' (List.mem_cons_of_mem _ h')

/-! ### Remaining helpers: lengths and positivity -/

theorem length_remove (m : IntMap V) (k : Nat) :
    ((m.remove k).2).cache.length = m.cache.length := by
  cases hfi : findIndex k (m.cache.getD (m.calc_index k) []) with
  | none => rw [remove_eq_none_case m k hfi]
  | some i =>
    rcases findIndex_some k _ i hfi with ⟨kv, hget, _, _⟩
    rw [remove_eq_some_case m k i kv hfi hget]
    exact length_modifyAt _ _ _

theorem ensure_fuel_len_pos (fuel : Nat) (m : IntMap V) (h : 0 < m.cache.length) :
    0 < (ensure_fuel fuel m).cache.length := by
  induction fuel generalizing m with
  | zero => exact h
  | succ f ih =>
    simp only [ensure_fuel]
    by_cases hov : overloaded m
    · rw [if_pos hov]
      refine ih _ ?_
      rw [length_increase]
      exact Nat.pos_pow_of_pos _ (by decide)
    · rw [if_neg hov]
      exact h

theorem insert_len_pos (m : IntMap V) (k : Nat) (v : V) (h : 0 < m.cache.length) :
    0 < ((m.insert k v).2).cache.length := by
  have hplen : (plain_insert m k v).cache.length = m.cache.length := by
    rw [show (plain_insert m k v).cache = pushAt m.cache (m.calc_index k) (k, v) from rfl,
      pushAt, length_modifyAt]
  rw [insert_eq]
  cases hg : (m.get k).isSome with
  | true => simpa using h
  | false =>
    by_cases h4 : ((m.count + 1) &&& 4 == 4 : Bool)
    · simp only [Bool.false_eq_true, if_false, h4, if_true]
      exact ensure_fuel_len_pos _ _ (by rw [hplen]; exact h)
    · simp only [Bool.false_eq_true, if_false, h4]
      rw [hplen]
      exact h

theorem grow_fuel_len_pos (fuel : Nat) (m : IntMap V) (cap : Nat) :
    0 < m.cache.length → 0 < (grow_fuel fuel m cap).cache.length := by
  induction fuel generalizing m with
  | zero => exact fun h => h
  | succ f ih =>
    intro hpos
    simp only [grow_fuel]
    by_cases h : m.lim < cap
    · rw [if_pos h]
      refine ih _ ?_
      rw [length_increase]
      exact Nat.pos_pow_of_pos _ (by decide)
    · rw [if_neg h]
      exact hpos

theorem grow_til_len_pos (m : IntMap V) (cap : Nat) :
    0 < m.cache.length → 0 < (grow_til m cap).cache.length :=
  grow_fuel_len_pos _ _ _

theorem with_capacity_capacity_ge (c : Nat) :
    c ≤ (with_capacity c : IntMap V).capacity := by
  have hg := @good_with_capacity V c
  have hlim := grow_til_lim_ge
    (increase_cache ({ cache := [], size := 0, mod_mask := 0, count := 0 } : IntMap V)) c
  rw [capacity, hg.len_eq]
  exact hlim

theorem with_capacity_capacity_ge_two (c : Nat) :
    2 ≤ (with_capacity c : IntMap V).capacity := by
  have hg := @good_with_capacity V c
  rw [capacity, hg.len_eq]
  calc 2 = 2 ^ 1 := rfl
    _ ≤ 2 ^ (with_capacity c : IntMap V).size :=
        Nat.pow_le_pow_right (by decide) hg.size_pos

/-! ### The claims -/

/-- C1: Round-trip — for every (well-formed) map state, key `k` and value
`v`, if `insert(k, v)` returns `true`, then on the resulting map `get(k)`
returns the value `v` and `contains_key(k)` is `true`. -/
theorem c1_round_trip (m : IntMap V) (k : Nat) (v : V) (hm : Good m)
    (hins : (m.insert k v).1 = true) :
    ((m.insert k v).2).get k = some v ∧
      ((m.insert k v).2).contains_key k = true := by
  have habs : m.get k = none := by
    rw [insert_fst] at hins
    cases h : m.get k with
    | none => rfl
    | some w =>
      rw [h] at hins
      simp at hins
  have hg := get_insert_self m k v hm habs
  refine ⟨hg, ?_⟩
  rw [contains_key, hg]
  rfl

theorem c1_round_trip_witness :
    (((new : IntMap Nat).insert 21 42).2).get 21 = some 42 ∧
      (((new : IntMap Nat).insert 21 42).2).contains_key 21 = true :=
  c1_round_trip new 21 42 good_new (by decide)

/-- C2: insert never overwrites — if `k` is present with value `v1` then
`insert(k, v2)` returns `false` and leaves the whole map state unchanged,
and `insert` returns `true` exactly when the key is absent. -/
theorem c2_insert_no_overwrite (m : IntMap V) (k : Nat) (v1 v2 : V) :
    (m.get k = some v1 → m.insert k v2 = (false, m)) ∧
      ((m.insert k v2).1 = true ↔ m.get k = none) := by
  constructor
  · intro h
    rw [insert_eq, h]
    rfl
  · rw [insert_fst]
    cases h : m.get k <;> simp

theorem c2_insert_no_overwrite_witness :
    exL.insert 1 7 = (false, exL) ∧ ((exL.insert 2 9).1 = true ↔ exL.get 2 = none) :=
  ⟨(c2_insert_no_overwrite exL 1 5 7).1 (by decide),
   (c2_insert_no_overwrite exL 2 5 9).2⟩

/-- C3: Remove contract — `remove(k)` returns exactly what `get(k)` returns
(so `Some v` iff `k` is stored with value `v`); when the key was present,
`count` drops by one and afterwards `get(k)` is `none` and
`contains_key(k)` is `false`; when the key is absent, `remove(k)` returns
`none` and leaves the map unchanged. -/
theorem c3_remove_contract (m : IntMap V) (k : Nat) (hm : Good m) :
    ((m.remove k).1 = m.get k) ∧
      (∀ v, m.get k = some v →
        ((m.remove k).2).count + 1 = m.count ∧
          ((m.remove k).2).get k = none ∧
          ((m.remove k).2).contains_key k = false) ∧
      (m.get k = none → m.remove k = (none, m)) := by
  refine ⟨remove_fst m k, ?_, remove_of_absent m k⟩
  intro v hv
  have h1 := remove_count m k hm v hv
  have h2 := get_remove_self m k hm
  refine ⟨h1, h2, ?_⟩
  rw [contains_key, h2]
  rfl

theorem c3_remove_contract_witness :
    ((((new : IntMap Nat).insert 21 42).2.remove 21).2).get 21 = none ∧
      ((((new : IntMap Nat).insert 21 42).2.remove 21).2).count + 1
        = ((new : IntMap Nat).insert 21 42).2.count :=
  ⟨((c3_remove_contract ((new : IntMap Nat).insert 21 42).2 21
      (good_insert new 21 42 good_new)).2.1 42 (by decide)).2.1,
   ((c3_remove_contract ((new : IntMap Nat).insert 21 42).2 21
      (good_insert new 21 42 good_new)).2.1 42 (by decide)).1⟩

/-- C4: the structural invariant (power-of-two bucket count, mask = length
minus one, `count` = number of stored pairs, no duplicate key, every pair
in the chain at `hash(key) & mask`) is preserved by `insert`, `remove`,
`clear`, `retain`, `reserve` and each internal resize (`increase_cache`). -/
theorem c4_invariant_preserved (m : IntMap V) (k : Nat) (v : V)
    (f : Nat → V → Bool) (n : Nat) (hm : Good m) :
    Good ((m.insert k v).2) ∧ Good ((m.remove k).2) ∧ Good (m.clear) ∧
      Good (m.retain f) ∧ Good (m.reserve n) ∧ Good (increase_cache m) :=
  ⟨good_insert m k v hm, good_remove m k hm, good_clear m hm,
    good_retain m f hm, grow_til_good _ _ hm, good_increase m hm⟩

theorem c4_invariant_preserved_witness :
    Good (((new : IntMap Nat).insert 3 4).2) ∧
      Good (((new : IntMap Nat).remove 3).2) ∧ Good ((new : IntMap Nat).clear) ∧
      Good ((new : IntMap Nat).retain (fun k _ => k == 3)) ∧
      Good ((new : IntMap Nat).reserve 10) ∧ Good (increase_cache (new : IntMap Nat)) :=
  c4_invariant_preserved new 3 4 (fun k _ => k == 3) 10 good_new

/-- C5: resize preserves content — every sequence of insertions with
pairwise distinct keys starting from the empty map leaves every inserted
key retrievable with its value, regardless of intervening resizes; and a
resize (`increase_cache`) only relocates the stored pairs (its pair list
is a permutation of the old one) and keeps `count`. -/
theorem c5_insert_seq_retrievable (l : List (Nat × V))
    (hnd : (l.map Prod.fst).Nodup) :
    (∀ kv ∈ l, (insertAll (new : IntMap V) l).get kv.1 = some kv.2) ∧
      (∀ m : IntMap V, (increase_cache m).cache.flatten.Perm m.cache.flatten ∧
        (increase_cache m).count = m.count) :=
  ⟨get_insertAll_of_nodup new l good_new hnd
      (fun kv _ => get_with_capacity 4 kv.1),
    fun m => ⟨flatten_increase_perm m, rfl⟩⟩

theorem c5_insert_seq_retrievable_witness :
    (insertAll (new : IntMap Nat) [(1, 10), (2, 20), (3, 30), (4, 40), (5, 50)]).get 3
      = some 30 :=
  (c5_insert_seq_retrievable [(1, 10), (2, 20), (3, 30), (4, 40), (5, 50)]
    (by decide)).1 (3, 30) (by decide)

/-- C6: growth policy — after an insertion the load check runs exactly when
the new `count` has bit 2 set (`count & 4 == 4`), in which case the bucket
array is doubled (`increase_cache`) repeatedly while
`(count * 100) / cache.len() > 70`; a failed insert does not grow; no
other operation grows the array; and the bucket array never shrinks. -/
theorem c6_growth_policy (m : IntMap V) (k : Nat) (v : V) (f : Nat → V → Bool)
    (n : Nat) (hm : Good m) :
    (m.get k = none → ((m.count + 1) &&& 4 == 4) = true →
        m.insert k v = (true, ensure_load_rate (plain_insert m k v))) ∧
      (m.get k = none → ((m.count + 1) &&& 4 == 4) = false →
        m.insert k v = (true, plain_insert m k v)) ∧
      (m.get k ≠ none → m.insert k v = (false, m)) ∧
      (overloaded m = false → ensure_load_rate m = m) ∧
      (overloaded m = true →
        ensure_load_rate m = ensure_load_rate (increase_cache m)) ∧
      overloaded (ensure_load_rate m) = false ∧
      m.cache.length ≤ ((m.insert k v).2).cache.length ∧
      ((m.remove k).2).cache.length = m.cache.length ∧
      (m.clear).cache.length = m.cache.length ∧
      (m.retain f).cache.length = m.cache.length ∧
      m.cache.length ≤ (m.reserve n).cache.length := by
  refine ⟨?_, ?_, ?_, ensure_of_not_overloaded m,
    ensure_eq_of_overloaded m hm.len_eq, ensure_not_overloaded m hm.len_eq,
    length_insert_mono m k v hm.len_eq, length_remove m k, ?_, ?_, ?_⟩
  · intro habs h4
    have hg : (m.get k).isSome = false := by rw [habs]; rfl
    rw [insert_eq]
    simp only [hg, Bool.false_eq_true, if_false, h4, if_true]
  · intro habs h4
    have hg : (m.get k).isSome = false := by rw [habs]; rfl
    rw [insert_eq]
    simp only [hg, Bool.false_eq_true, if_false, h4]
  · intro hpres
    have hg : (m.get k).isSome = true := by
      cases h : m.get k with
      | none => exact absurd h hpres
      | some w => rfl
    rw [insert_eq]
    simp only [hg, if_true]
  · show (m.cache.map _).length = m.cache.length
    exact List.length_map _ _
  · show (m.cache.map _).length = m.cache.length
    exact List.length_map _ _
  · exact grow_til_len_mono m _ hm.len_eq

theorem c6_growth_policy_witness :
    (new : IntMap Nat).insert 1 2 = (true, plain_insert (new : IntMap Nat) 1 2) ∧
      overloaded (ensure_load_rate (new : IntMap Nat)) = false :=
  ⟨(c6_growth_policy (new : IntMap Nat) 1 2 (fun _ _ => true) 0 good_new).2.1
      (by decide) (by decide),
   (c6_growth_policy (new : IntMap Nat) 1 2 (fun _ _ => true) 0
      good_new).2.2.2.2.2.1⟩

/-- C7 counterexample: processing the keys `10,30,10,40,50,50,60,50` with
the counting pattern leaves the counter of key `10` at `2` (the key occurs
twice in the sequence), not `1` as the claim states. -/
theorem c7_counterexample :
    countScenario.get 10 = some 2 ∧ countScenario.get 10 ≠ some 1 := by
  constructor
  · decide
  · decide

/-- C7 (amended): starting from an empty map and processing the keys
`10,30,10,40,50,50,60,50` with the counting pattern (key absent: insert 0
then increment; key present: increment in place, via `contains_key` then
`insert`/`get_mut`), the final map is `{10:2, 30:1, 40:1, 50:3, 60:1}`
and `get(20)` is absent. -/
theorem c7_count_scenario :
    countScenario.get 10 = some 2 ∧ countScenario.get 30 = some 1 ∧
      countScenario.get 40 = some 1 ∧ countScenario.get 50 = some 3 ∧
      countScenario.get 60 = some 1 ∧ countScenario.get 20 = none ∧
      countScenario.count = 5 := by
  refine ⟨by decide, by decide, by decide, by decide, by decide, by decide, by decide⟩

/-- C8: map equality is exactly the one-directional check that every pair
of the left map is found with an equal value by the right map's lookup; in
particular for the concrete pair `exL = {1↦5}`, `exR = {1↦5, 2↦6}` (the
right a strict superset of the left) equality returns `true` although the
sizes differ, and it is not symmetric. -/
theorem c8_map_equality (W : Type) [BEq W] (a b : IntMap W) :
    (mapEq a b = true ↔ ∀ kv ∈ a.toList, (b.get kv.1 == some kv.2) = true) ∧
      (mapEq exL exR = true ∧ exR.count = exL.count + 1 ∧ exL.get 2 = none ∧
        exR.get 2 = some 6 ∧ mapEq exR exL = false) := by
  constructor
  · rw [mapEq, List.all_eq_true]
  · exact ⟨by decide, by decide, by decide, by decide, by decide⟩

/-- C9: `with_capacity c` produces an empty map whose `capacity()` is a
power of two at least `c`; in particular `with_capacity 20` has capacity
exactly `32`. -/
theorem c9_with_capacity (c : Nat) :
    (∃ s, (with_capacity c : IntMap V).capacity = 2 ^ s) ∧
      c ≤ (with_capacity c : IntMap V).capacity ∧
      (with_capacity c : IntMap V).count = 0 ∧
      (∀ k, (with_capacity c : IntMap V).get k = none) ∧
      (with_capacity 20 : IntMap Nat).capacity = 32 := by
  have hg := @good_with_capacity V c
  refine ⟨⟨(with_capacity c : IntMap V).size, ?_⟩, with_capacity_capacity_ge c,
    with_capacity_count c, get_with_capacity c, by decide⟩
  rw [capacity]
  exact hg.len_eq

/-- C10: maps built by `new` or `with_capacity` have at least 2 buckets; no
operation empties the bucket array; under the invariant `calc_index` is
always in bounds; and the divisor in `ensure_load_rate` (the bucket-array
length, also after each `increase_cache` step) is never zero. -/
theorem c10_safety (m : IntMap V) (k : Nat) (v : V) (f : Nat → V → Bool)
    (c n fuel : Nat) :
    2 ≤ (new : IntMap V).capacity ∧
      2 ≤ (with_capacity c : IntMap V).capacity ∧
      (Good m → m.calc_index k < m.cache.length) ∧
      (0 < m.cache.length → 0 < ((m.insert k v).2).cache.length) ∧
      ((m.remove k).2).cache.length = m.cache.length ∧
      (m.clear).cache.length = m.cache.length ∧
      (m.retain f).cache.length = m.cache.length ∧
      (0 < m.cache.length → 0 < (m.reserve n).cache.length) ∧
      0 < (increase_cache m).cache.length ∧
      (0 < m.cache.length → 0 < (ensure_fuel fuel m).cache.length) := by
  refine ⟨with_capacity_capacity_ge_two 4, with_capacity_capacity_ge_two c,
    fun hm => calc_index_lt m hm k, insert_len_pos m k v, length_remove m k,
    ?_, ?_, grow_til_len_pos m _, ?_, ensure_fuel_len_pos fuel m⟩
  · show (m.cache.map _).length = m.cache.length
    exact List.length_map _ _
  · show (m.cache.map _).length = m.cache.length
    exact List.length_map _ _
  · rw [length_increase]
    exact Nat.pos_pow_of_pos _ (by decide)

theorem c10_safety_witness :
    (new : IntMap Nat).calc_index 21 < (new : IntMap Nat).cache.length ∧
      0 < (((new : IntMap Nat).insert 21 42).2).cache.length :=
  ⟨(c10_safety (new : IntMap Nat) 21 42 (fun _ _ => true) 0 0 0).2.2.1 good_new,
   (c10_safety (new : IntMap Nat) 21 42 (fun _ _ => true) 0 0 0).2.2.2.1
     (by decide)⟩

end IntMap
